import Mathlib

/-!
Verification of the lambda-calculus kernel (AST, recursive-descent syntax analysis,
capture-avoiding substitution, redex numbering, beta reduction, and substitution
provenance) against its natural-language specification.

The definitions below are a shallow embedding of the kernel source
(`src/kernel.js`): classes `Variable`, `Abstraction`, `Application` become a
three-variant inductive type; the character-indexed text scanner becomes a
fueled function over a list of remaining characters plus an absolute position;
thrown `Error` objects become an `Except` error value carrying the message and
the offending position; the mutable redex counter becomes explicit state
passing.
-/

/-- AST node: `Variable {name, fromSubstitution, sourceId}`,
`Abstraction {param, body, fromSubstitution, sourceId}`,
`Application {func, arg, id, fromSubstitution, sourceId}`. -/
inductive Expr where
  | var (name : String) (fromSubstitution : Bool) (sourceId : Option Nat)
  | abs (param : String) (body : Expr) (fromSubstitution : Bool) (sourceId : Option Nat)
  | app (func arg : Expr) (id : Option Nat) (fromSubstitution : Bool) (sourceId : Option Nat)
deriving DecidableEq, Repr

namespace Expr

/-- The `fromSubstitution` field of a node (uniform accessor over the three classes). -/
def fromSub : Expr → Bool
  | .var _ fs _ => fs
  | .abs _ _ fs _ => fs
  | .app _ _ _ fs _ => fs

/-- The `sourceId` field of a node. -/
def sourceIdOf : Expr → Option Nat
  | .var _ _ s => s
  | .abs _ _ _ s => s
  | .app _ _ _ _ s => s

/-- Whether the node is an `Abstraction` (used by `isRedex` and `toPlainString`). -/
def isAbs : Expr → Bool
  | .abs _ _ _ _ => true
  | _ => false

/-- Number of nodes; used as a termination measure for substitution. -/
def size : Expr → Nat
  | .var _ _ _ => 1
  | .abs _ b _ _ => 1 + size b
  | .app f a _ _ _ => 1 + size f + size a

theorem size_pos (e : Expr) : 0 < e.size := by
  cases e <;> simp [size]

/-- The `clone(fromSubstitution, sourceId)` method shared by the three node classes:
ORs the new mark with the existing one and overrides the `sourceId` only when the
argument is non-null, recursing through the whole subtree. -/
def clone : Expr → Bool → Option Nat → Expr
  | .var n fs sid, m, s =>
      .var n (m || fs) (match s with | some v => some v | none => sid)
  | .abs p b fs sid, m, s =>
      .abs p (clone b m s) (m || fs) (match s with | some v => some v | none => sid)
  | .app f a id fs sid, m, s =>
      .app (clone f m s) (clone a m s) id (m || fs) (match s with | some v => some v | none => sid)

end Expr

/-- `isRedex(expr)`: an Application whose `func` is an Abstraction. -/
def isRedexB (e : Expr) : Bool :=
  match e with
  | .app f _ _ _ _ => f.isAbs
  | _ => false

/-- `freeVariables(expr)`: set of names with an unbound occurrence. -/
def freeVariables : Expr → Finset String
  | .var n _ _ => {n}
  | .abs p b _ _ => (freeVariables b).erase p
  | .app f a _ _ _ => freeVariables f ∪ freeVariables a

/-- A string of `k` apostrophes, the suffixes `freshName` tries in order. -/
def primes (k : Nat) : String := String.mk (List.replicate k '\x27')

/-- Fueled body of `freshName`: `while (avoid.has(fresh)) fresh += "'"`.
The loop visits `base`, `base ++ "'"`, ... which are pairwise distinct, so
`avoid.card + 1` iterations always reach a name outside `avoid`. -/
def freshNameAux : Nat → String → Finset String → String
  | 0, n, _ => n
  | k + 1, n, avoid => if n ∈ avoid then freshNameAux k (n ++ "\x27") avoid else n

/-- `freshName(name, avoid)`: append apostrophes to `name` until outside `avoid`. -/
def freshName (name : String) (avoid : Finset String) : String :=
  freshNameAux (avoid.card + 1) name avoid

/-- Fueled body of `substitute(expr, varName, replacement, markAsSubstituted, sourceId)`.
The capture case recurses on a renamed body that is not a structural subterm, so the
definition carries fuel; `size expr` fuel always suffices (`substituteF_congr`),
because renaming by a fresh variable preserves the node count. Fuel 0 (never
reached from `substitute`) returns the input unchanged. -/
def substituteF : Nat → Expr → String → Expr → Bool → Option Nat → Expr
  | 0, e, _, _, _, _ => e
  | n + 1, e, varName, replacement, mark, sid =>
    match e with
    | .var nm fs s => if nm = varName then replacement.clone mark sid else .var nm fs s
    | .abs p b fs s =>
      if p = varName then .abs p b fs s
      else
        let replFree := freeVariables replacement
        if p ∈ replFree then
          let allFree := insert varName (replFree ∪ freeVariables b)
          let newParam := freshName p allFree
          let renamedBody := substituteF n b p (.var newParam false none) false none
          .abs newParam (substituteF n renamedBody varName replacement mark sid) fs s
        else
          .abs p (substituteF n b varName replacement mark sid) fs s
    | .app f a id fs s =>
      .app (substituteF n f varName replacement mark sid)
        (substituteF n a varName replacement mark sid) id fs s

/-- `substitute(expr, varName, replacement, markAsSubstituted, sourceId)`:
capture-avoiding substitution, run with sufficient fuel. -/
def substitute (e : Expr) (varName : String) (replacement : Expr)
    (mark : Bool) (sid : Option Nat) : Expr :=
  substituteF e.size e varName replacement mark sid

/-- State-passing form of `numberRedexes(expr, counter)`: the JS version threads a
mutable `{val}` cell through a pre-order traversal, numbering a redex Application
before recursing and visiting `func` before `arg`. -/
def numberRedexesAux : Expr → Nat → Expr × Nat
  | .var n fs s, c => (.var n fs s, c)
  | .abs p b fs s, c =>
    let r := numberRedexesAux b c
    (.abs p r.1 fs s, r.2)
  | .app f a _ fs s, c =>
    let idc := if isRedexB (.app f a none fs s) then (some c, c + 1) else (none, c)
    let rf := numberRedexesAux f idc.2
    let ra := numberRedexesAux a rf.2
    (.app rf.1 ra.1 idc.1 fs s, ra.2)

/-- `numberRedexes(expr)` with the counter starting at 1. -/
def numberRedexes (e : Expr) : Expr := (numberRedexesAux e 1).1

/-- `clearSubstitutionMarks(expr)`: reset every `fromSubstitution`/`sourceId` to
false/null, keeping structure, names and Application ids. -/
def clearSubstitutionMarks : Expr → Expr
  | .var n _ _ => .var n false none
  | .abs p b _ _ => .abs p (clearSubstitutionMarks b) false none
  | .app f a id _ _ => .app (clearSubstitutionMarks f) (clearSubstitutionMarks a) id false none

/-- `reduceAt(expr, targetId)`: beta-reduce the Application whose `id` equals
`targetId` and which is a redex; rebuild all other nodes unchanged. -/
def reduceAt : Expr → Option Nat → Expr
  | .var n fs s, _ => .var n fs s
  | .abs p b fs s, t => .abs p (reduceAt b t) fs s
  | .app f a id fs s, t =>
    if id = t && isRedexB (.app f a id fs s) then
      match f with
      | .abs p b _ _ => substitute b p a true t
      | f' => .app (reduceAt f' t) (reduceAt a t) id fs s
    else
      .app (reduceAt f t) (reduceAt a t) id fs s

/-- `getRedexCount(expr)`: number of redex Applications in the tree. -/
def getRedexCount : Expr → Nat
  | .var _ _ _ => 0
  | .abs _ b _ _ => getRedexCount b
  | .app f a id fs s => (if isRedexB (.app f a id fs s) then 1 else 0) + getRedexCount f + getRedexCount a

/-- `toPlainString(expr)`: canonical serialization. Abstractions in the `func`
or `arg` position of an Application are wrapped in parentheses; every
Application wraps itself in parentheses. -/
def toPlainString : Expr → String
  | .var n _ _ => n
  | .abs p b _ _ => "λ" ++ p ++ "." ++ toPlainString b
  | .app f a _ _ _ =>
    let funcStr := if f.isAbs then "(" ++ toPlainString f ++ ")" else toPlainString f
    let argStr := if a.isAbs then "(" ++ toPlainString a ++ ")" else toPlainString a
    "(" ++ funcStr ++ " " ++ argStr ++ ")"

/-- Traversal of `getSubstitutions(expr)` producing the reported
`(sourceId, node)` pairs in visit order: a node is pushed when its
`fromSubstitution` flag is set and the traversal is not already inside a
substituted subtree, and the `inSubstitution` flag becomes sticky below any
marked node. -/
def subsListAux : Expr → Bool → List (Option Nat × Expr)
  | .var n fs s, inSub =>
    if fs && !inSub then [(s, .var n fs s)] else []
  | .abs p b fs s, inSub =>
    (if fs && !inSub then [(s, .abs p b fs s)] else []) ++ subsListAux b (inSub || fs)
  | .app f a id fs s, inSub =>
    (if fs && !inSub then [(s, .app f a id fs s)] else []) ++
      subsListAux f (inSub || fs) ++ subsListAux a (inSub || fs)

/-- `getSubstitutions(expr).get(sid)`: the nodes grouped under key `sid` in the
returned map, in traversal order (JS `Map` groups by key preserving insertion
order, so the per-key list is the filtered traversal list). -/
def getSubstitutions (e : Expr) (sid : Option Nat) : List Expr :=
  ((subsListAux e false).filter (fun p => p.1 = sid)).map (fun p => p.2)

/-!
Character predicates of the scanner. The JS predicates are regular-expression
tests on `source[position]`, which is `undefined` past the end of the input;
`RegExp.test` then coerces `undefined` to the string `"undefined"`, so at
end-of-input `isVariableStart` and `isVariableChar` answer `true` while
`isWhitespace` answers `false` and the `===` comparisons answer `false`. The
`Option Char` wrappers reproduce exactly that behaviour at `none`.
-/

/-- `/\s/.test(char)` on a real character (the inputs exercised use ASCII whitespace). -/
def isWsC (c : Char) : Bool :=
  c = ' ' || c = '\t' || c = '\n' || c = '\r' || c = '\x0b' || c = '\x0c'

/-- `isLambdaStart`: `'λ'` or `'\'`. -/
def isLambdaStartC (c : Char) : Bool := c = 'λ' || c = '\\'

/-- `/[a-zA-Z]/.test(char)`. -/
def isVariableStartC (c : Char) : Bool :=
  ('a' ≤ c && c ≤ 'z') || ('A' ≤ c && c ≤ 'Z')

/-- `/[a-zA-Z0-9_']/.test(char)`. -/
def isVariableCharC (c : Char) : Bool :=
  isVariableStartC c || ('0' ≤ c && c ≤ '9') || c = '_' || c = '\x27'

/-- `isWhitespace(currentChar())`, `undefined` coercing to `"undefined"` (no whitespace). -/
def isWhitespaceO : Option Char → Bool
  | none => false
  | some c => isWsC c

/-- `isLambdaStart(currentChar())`; `undefined === 'λ'` is false. -/
def isLambdaStartO : Option Char → Bool
  | none => false
  | some c => isLambdaStartC c

/-- `isVariableStart(currentChar())`; the coerced string `"undefined"` contains letters. -/
def isVariableStartO : Option Char → Bool
  | none => true
  | some c => isVariableStartC c

/-- `isVariableChar(currentChar())`; same coercion note as `isVariableStartO`. -/
def isVariableCharO : Option Char → Bool
  | none => true
  | some c => isVariableCharC c

/-- `isAtomStart(char)`. -/
def isAtomStartO (c : Option Char) : Bool :=
  c = some '(' || isLambdaStartO c || isVariableStartO c

/-- Scanner state: the characters not yet consumed and the absolute position
(the JS object keeps the whole source and an index; only the suffix from the
index onward and the index itself are ever observable). -/
structure PState where
  rest : List Char
  pos : Nat
deriving DecidableEq, Repr

/-- A parse failure as surfaced by `Parser.error(message)`: the human-readable
message and the offending character position (the JS code interpolates both,
plus a context excerpt, into one `Error`). -/
structure PErr where
  msg : String
  pos : Nat
deriving DecidableEq, Repr

/-- `advance()`: consume one character. -/
def PState.advance (s : PState) : PState := ⟨s.rest.tail, s.pos + 1⟩

/-- Loop of `skipWhitespace()`. -/
def skipWsL : List Char → Nat → List Char × Nat
  | [], p => ([], p)
  | c :: l, p => if isWsC c then skipWsL l (p + 1) else (c :: l, p)

/-- `skipWhitespace()`. -/
def skipWs (s : PState) : PState :=
  let r := skipWsL s.rest s.pos
  ⟨r.1, r.2⟩

/-- Maximal identifier prefix and the remainder, the loop of `parseVariableName`. -/
def spanName : List Char → List Char × List Char
  | [] => ([], [])
  | c :: l =>
    if isVariableCharC c then
      let r := spanName l
      (c :: r.1, r.2)
    else ([], c :: l)

/-- `parseVariableName()`: consume identifier characters; fail on an empty name. -/
def parseVarName (s : PState) : Except PErr (String × PState) :=
  let r := spanName s.rest
  if r.1 = [] then .error ⟨"Expected variable name", s.pos⟩
  else .ok (String.mk r.1, ⟨r.2, s.pos + r.1.length⟩)

mutual

/-- `parseAtom()`: parenthesized expression, lambda, or variable. Fuel bounds
the depth of the mutual recursion; the top-level entry supplies enough for any
input (each `parseAtom` to `parseExpr` descent first consumes a character). -/
def parseAtomF : Nat → PState → Except PErr (Expr × PState)
  | 0, s => .error ⟨"out of fuel", s.pos⟩
  | n + 1, s₀ =>
    if (skipWs s₀).rest.head? = some '(' then
      match parseExprF n (skipWs s₀).advance with
      | .error e => .error e
      | .ok (inner, s₁) =>
        if (skipWs s₁).rest.head? = some ')' then .ok (inner, (skipWs s₁).advance)
        else .error ⟨"Expected \x27)\x27", (skipWs s₁).pos⟩
    else if isLambdaStartO (skipWs s₀).rest.head? then
      match parseVarName (skipWs (skipWs s₀).advance) with
      | .error e => .error e
      | .ok (param, s₂) =>
        if (skipWs s₂).rest.head? = some '.' then
          match parseExprF n (skipWs s₂).advance with
          | .error e => .error e
          | .ok (body, s₄) => .ok (.abs param body false none, s₄)
        else .error ⟨"Expected \x27.\x27 after lambda parameter", (skipWs s₂).pos⟩
    else if isVariableStartO (skipWs s₀).rest.head? then
      match parseVarName (skipWs s₀) with
      | .error e => .error e
      | .ok (nm, s₁) => .ok (.var nm false none, s₁)
    else
      match (skipWs s₀).rest.head? with
      | some c =>
        .error ⟨"Unexpected character \x27" ++ String.mk [c] ++ "\x27", (skipWs s₀).pos⟩
      | none => .error ⟨"Unexpected character \x27undefined\x27", (skipWs s₀).pos⟩

/-- `parseExpr()`: one atom followed by the application-collecting loop. -/
def parseExprF : Nat → PState → Except PErr (Expr × PState)
  | 0, s => .error ⟨"out of fuel", s.pos⟩
  | n + 1, s₀ =>
    match parseAtomF n (skipWs s₀) with
    | .error e => .error e
    | .ok (a, s₁) => parseLoopF n a s₁

/-- The `while (true)` loop of `parseExpr`: keep taking atoms while the next
character can start one, combining left-associatively. -/
def parseLoopF : Nat → Expr → PState → Except PErr (Expr × PState)
  | 0, _, s => .error ⟨"out of fuel", s.pos⟩
  | n + 1, acc, s₀ =>
    if (skipWs s₀).rest ≠ [] && (skipWs s₀).rest.head? ≠ some ')'
        && isAtomStartO (skipWs s₀).rest.head? then
      match parseAtomF n (skipWs s₀) with
      | .error e => .error e
      | .ok (a, s₁) => parseLoopF n (.app acc a none false none) s₁
    else .ok (acc, skipWs s₀)

end

/-- `input.trim()`: strip leading and trailing whitespace. -/
def jsTrim (l : List Char) : List Char :=
  ((l.dropWhile isWsC).reverse.dropWhile isWsC).reverse

/-- Fuel given to the scanner by the top-level entry point; ample for any input
because every descent and every loop iteration of the JS parser strictly
advances the position. -/
def parseFuel (src : List Char) : Nat := 4 * src.length + 4

/-- `parse(input)`: run `parseExpr` on the trimmed input and require that
everything was consumed. -/
def parse (input : String) : Except PErr Expr :=
  match parseExprF (parseFuel (jsTrim input.data)) ⟨jsTrim input.data, 0⟩ with
  | .error e => .error e
  | .ok (e, s) =>
    if (skipWs s).rest = [] then .ok e
    else .error ⟨"Unexpected character (expected end of input)", (skipWs s).pos⟩

/-!
Observation functions used to state the claims.
-/

/-- Erase all provenance metadata: `fromSubstitution` to false, `sourceId` and
Application `id` to null. Two trees are "structurally equal ignoring
provenance" exactly when their erasures coincide. -/
def eraseMeta : Expr → Expr
  | .var n _ _ => .var n false none
  | .abs p b _ _ => .abs p (eraseMeta b) false none
  | .app f a _ _ _ => .app (eraseMeta f) (eraseMeta a) none false none

/-- Null out Application ids only, keeping names and provenance; two trees agree
on shape, names and provenance exactly when their `stripIds` coincide. -/
def stripIds : Expr → Expr
  | .var n fs s => .var n fs s
  | .abs p b fs s => .abs p (stripIds b) fs s
  | .app f a _ fs s => .app (stripIds f) (stripIds a) none fs s

/-- All Application ids of the tree in depth-first pre-order, the node's own id
before the ids in `func`, those before the ids in `arg`. -/
def collectIds : Expr → List Nat
  | .var _ _ _ => []
  | .abs _ b _ _ => collectIds b
  | .app f a id _ _ =>
    (match id with | some i => [i] | none => []) ++ collectIds f ++ collectIds a

/-- Every Application carries a non-null id exactly when it is a redex. -/
def idsMatchRedex : Expr → Bool
  | .var _ _ _ => true
  | .abs _ b _ _ => idsMatchRedex b
  | .app f a id fs s => (id.isSome = isRedexB (.app f a id fs s) : Bool) && idsMatchRedex f && idsMatchRedex a

/-- Every node has `fromSubstitution = false` and `sourceId = null`. -/
def noMarks : Expr → Bool
  | .var _ fs s => !fs && s.isNone
  | .abs _ b fs s => (!fs && s.isNone) && noMarks b
  | .app f a _ fs s => (!fs && s.isNone) && noMarks f && noMarks a

/-- Same tree up to the provenance marks: equal constructors, names, parameters
and Application ids, with `fromSubstitution`/`sourceId` ignored. -/
def sameModuloMarks : Expr → Expr → Bool
  | .var n _ _, .var n' _ _ => n = n'
  | .abs p b _ _, .abs p' b' _ _ => (p = p' : Bool) && sameModuloMarks b b'
  | .app f a i _ _, .app f' a' i' _ _ =>
    (i = i' : Bool) && sameModuloMarks f f' && sameModuloMarks a a'
  | _, _ => false

/-- Some Application in the tree has `id == targetId` and is a redex: exactly
the condition under which `reduceAt` performs a beta step somewhere. -/
def hasTargetRedex : Expr → Option Nat → Bool
  | .var _ _ _, _ => false
  | .abs _ b _ _, t => hasTargetRedex b t
  | .app f a id fs s, t =>
    (id = t && isRedexB (.app f a id fs s)) || hasTargetRedex f t || hasTargetRedex a t

/-- Every node is provenance-free and id-free, as freshly parsed nodes are. -/
def pristine : Expr → Bool
  | .var _ fs s => !fs && s.isNone
  | .abs _ b fs s => (!fs && s.isNone) && pristine b
  | .app f a id fs s => (!fs && s.isNone && id.isNone) && pristine f && pristine a

/-- Modelled from the spec (amended form of the `getSubstitutions` contract):
the roots of the maximal subtrees whose root has `fromSubstitution = true` —
a marked node is reported, and nothing strictly inside any marked subtree is,
regardless of `sourceId`; each root is paired with its own `sourceId`. -/
def outermostMarked : Expr → List (Option Nat × Expr)
  | .var n fs s => if fs then [(s, .var n fs s)] else []
  | .abs p b fs s => if fs then [(s, .abs p b fs s)] else outermostMarked b
  | .app f a id fs s =>
    if fs then [(s, .app f a id fs s)] else outermostMarked f ++ outermostMarked a

/-- A syntactically valid variable name: nonempty, beginning with a letter, all
characters identifier characters. -/
def validName (s : String) : Bool :=
  match s.data with
  | [] => false
  | c :: cs => isVariableStartC c && (c :: cs).all isVariableCharC

/-- Every name and every binder parameter in the tree is a valid identifier:
the trees producible by the grammar's constructors. -/
def wfExpr : Expr → Bool
  | .var n _ _ => validName n
  | .abs p b _ _ => validName p && wfExpr b
  | .app f a _ _ _ => wfExpr f && wfExpr a

/-!
Redex numbering (claim C3).
-/

theorem numberRedexesAux_isAbs (e : Expr) (c : Nat) :
    ((numberRedexesAux e c).1).isAbs = e.isAbs := by
  cases e <;> simp [numberRedexesAux, Expr.isAbs]

theorem numberRedexesAux_spec (e : Expr) : ∀ c : Nat,
    stripIds (numberRedexesAux e c).1 = stripIds e ∧
    (numberRedexesAux e c).2 = c + getRedexCount e ∧
    collectIds (numberRedexesAux e c).1 = List.range' c (getRedexCount e) ∧
    idsMatchRedex (numberRedexesAux e c).1 = true := by
  induction e with
  | var n fs s =>
    intro c
    simp [numberRedexesAux, getRedexCount, collectIds, idsMatchRedex]
  | abs p b fs s ih =>
    intro c
    obtain ⟨h1, h2, h3, h4⟩ := ih c
    simp [numberRedexesAux, stripIds, getRedexCount, collectIds, idsMatchRedex, h1, h2, h3, h4]
  | app f a id fs s ihf iha =>
    intro c
    have hred : isRedexB (.app f a none fs s) = f.isAbs := by simp [isRedexB]
    have hred' : isRedexB (.app f a id fs s) = f.isAbs := by simp [isRedexB]
    by_cases hr : f.isAbs = true
    · obtain ⟨hf1, hf2, hf3, hf4⟩ := ihf (c + 1)
      obtain ⟨ha1, ha2, ha3, ha4⟩ := iha (c + 1 + getRedexCount f)
      refine ⟨?_, ?_, ?_, ?_⟩
      · simp [numberRedexesAux, hred, hr, stripIds, hf1, hf2, ha1]
      · simp [numberRedexesAux, hred, hr, getRedexCount, hred', hf2, ha2]
        omega
      · have hcount : getRedexCount (Expr.app f a id fs s)
            = getRedexCount a + getRedexCount f + 1 := by
          simp [getRedexCount, hred', hr]
          omega
        simp only [numberRedexesAux, hred, hr, if_true, collectIds, hf2, hf3, ha3,
          List.singleton_append, hcount, List.range'_succ]
        rw [List.cons_append]
        have hap := List.range'_append (c + 1) (getRedexCount f) (getRedexCount a) 1
        simp only [one_mul] at hap
        exact congrArg (c :: ·) hap
      · simp [numberRedexesAux, hred, hr, idsMatchRedex, hf2, hf4, ha4, isRedexB,
          numberRedexesAux_isAbs]
    · replace hr : f.isAbs = false := by simpa using hr
      obtain ⟨hf1, hf2, hf3, hf4⟩ := ihf c
      obtain ⟨ha1, ha2, ha3, ha4⟩ := iha (c + getRedexCount f)
      refine ⟨?_, ?_, ?_, ?_⟩
      · simp [numberRedexesAux, hred, hr, stripIds, hf1, hf2, ha1]
      · simp [numberRedexesAux, hred, hr, getRedexCount, hred', hf2, ha2]
        omega
      · have hcount : getRedexCount (Expr.app f a id fs s)
            = getRedexCount a + getRedexCount f := by
          simp [getRedexCount, hred', hr]
          omega
        simp only [numberRedexesAux, hred, hr, Bool.false_eq_true, if_false, collectIds,
          hf2, hf3, ha3, List.nil_append, hcount]
        have hap := List.range'_append c (getRedexCount f) (getRedexCount a) 1
        simp only [one_mul] at hap
        exact hap
      · simp [numberRedexesAux, hred, hr, idsMatchRedex, hf2, hf4, ha4, isRedexB,
          numberRedexesAux_isAbs]

/-- Claim C3: `numberRedexes` preserves shape, names and provenance, assigns a
non-null id to an Application exactly when it is a redex, and the assigned ids
read in depth-first pre-order (node before `func` before `arg`) are exactly
`1, 2, ..., getRedexCount expr`, each exactly once. -/
theorem c3_numberRedexes_spec (e : Expr) :
    stripIds (numberRedexes e) = stripIds e ∧
    idsMatchRedex (numberRedexes e) = true ∧
    collectIds (numberRedexes e) = List.range' 1 (getRedexCount e) := by
  obtain ⟨h1, _, h3, h4⟩ := numberRedexesAux_spec e 1
  exact ⟨h1, h4, h3⟩

/-!
Clearing marks (claim C8).
-/

theorem clear_noMarks (e : Expr) : noMarks (clearSubstitutionMarks e) = true := by
  induction e <;> simp [clearSubstitutionMarks, noMarks, *]

theorem clear_sameModuloMarks (e : Expr) :
    sameModuloMarks (clearSubstitutionMarks e) e = true := by
  induction e <;> simp [clearSubstitutionMarks, sameModuloMarks, *]

/-- Claim C8: `clearSubstitutionMarks` resets every node's
`fromSubstitution`/`sourceId` to false/null while preserving the tree shape,
all names and parameters, and every Application's redex id. -/
theorem c8_clearSubstitutionMarks_spec (e : Expr) :
    noMarks (clearSubstitutionMarks e) = true ∧
    sameModuloMarks (clearSubstitutionMarks e) e = true :=
  ⟨clear_noMarks e, clear_sameModuloMarks e⟩

/-!
Benign no-op reduction (claim C4).
-/

/-- Claim C4: when no Application in the tree both carries `id = targetId` and
is a redex, `reduceAt` returns the input tree unchanged instead of failing. -/
theorem c4_reduceAt_benign_noop (e : Expr) (t : Option Nat)
    (h : hasTargetRedex e t = false) : reduceAt e t = e := by
  induction e with
  | var n fs s => simp [reduceAt]
  | abs p b fs s ih =>
    simp only [hasTargetRedex] at h
    simp [reduceAt, ih h]
  | app f a id fs s ihf iha =>
    simp only [hasTargetRedex, Bool.or_eq_false_iff] at h
    obtain ⟨⟨hc, hf⟩, ha⟩ := h
    cases f with
    | var n nf ns => simp [reduceAt, isRedexB, Expr.isAbs, ihf hf, iha ha]
    | app g b i j k => simp [reduceAt, isRedexB, Expr.isAbs, ihf hf, iha ha]
    | abs p b bf bs =>
      simp only [isRedexB, Expr.isAbs, Bool.and_true, decide_eq_false_iff_not] at hc
      have hb : reduceAt b t = b := by simpa [reduceAt] using ihf hf
      simp [reduceAt, isRedexB, Expr.isAbs, hc, hb, iha ha]

/-- Witness for C4 at the non-redex application `(a b)` and target id 1. -/
theorem c4_noop_witness :
    hasTargetRedex (.app (.var "a" false none) (.var "b" false none) none false none) (some 1) = false ∧
    reduceAt (.app (.var "a" false none) (.var "b" false none) none false none) (some 1) =
      .app (.var "a" false none) (.var "b" false none) none false none :=
  ⟨by decide, c4_reduceAt_benign_noop _ _ (by decide)⟩

/-!
Substitution provenance collection (claim C5). The traversal suppresses every
node strictly inside a marked subtree, whether or not the enclosing
substitution has the same `sourceId`; the claim's per-`sourceId` reading of
the boundary fails on a tree nesting two different source ids.
-/

theorem subsListAux_inside (e : Expr) : subsListAux e true = [] := by
  induction e <;> simp [subsListAux, *]

theorem subsListAux_eq_outermostMarked (e : Expr) :
    subsListAux e false = outermostMarked e := by
  induction e with
  | var n fs s => cases fs <;> simp [subsListAux, outermostMarked]
  | abs p b fs s ih =>
    cases fs <;> simp [subsListAux, outermostMarked, subsListAux_inside, ih]
  | app f a id fs s ihf iha =>
    cases fs <;> simp [subsListAux, outermostMarked, subsListAux_inside, ihf, iha]

theorem outermostMarked_entries (e : Expr) :
    (outermostMarked e).all (fun p => p.2.fromSub && decide (p.1 = p.2.sourceIdOf)) = true := by
  induction e with
  | var n fs s => cases fs <;> simp [outermostMarked, Expr.fromSub, Expr.sourceIdOf]
  | abs p b fs s ih =>
    cases fs
    · exact ih
    · simp [outermostMarked, Expr.fromSub, Expr.sourceIdOf]
  | app f a id fs s ihf iha =>
    cases fs
    · rw [show outermostMarked (Expr.app f a id false s)
            = outermostMarked f ++ outermostMarked a from rfl,
        List.all_append, ihf, iha]
      rfl
    · simp [outermostMarked, Expr.fromSub, Expr.sourceIdOf]

/-- Counterexample to claim C5 as stated. In the tree
`Abstraction "a" (Variable "x" marked sourceId 2) marked sourceId 1` the inner
Variable has `fromSubstitution = true` and its immediate ancestor belongs to a
different substitution (`sourceId` 1, not 2), so the claim's if-and-only-if
requires the Variable to be reported under key 2 — but the code's traversal
stops at the first marked node on the path and reports nothing under key 2. -/
theorem c5_getSubstitutions_counterexample :
    Expr.fromSub (.var "x" true (some 2)) = true ∧
    Expr.sourceIdOf (.abs "a" (.var "x" true (some 2)) true (some 1)) = some 1 ∧
    some 1 ≠ (some 2 : Option Nat) ∧
    subsListAux (.abs "a" (.var "x" true (some 2)) true (some 1)) false =
      [(some 1, .abs "a" (.var "x" true (some 2)) true (some 1))] ∧
    getSubstitutions (.abs "a" (.var "x" true (some 2)) true (some 1)) (some 2) = [] := by
  refine ⟨rfl, rfl, by decide, rfl, rfl⟩

/-- Claim C5, amended: `getSubstitutions` collects exactly the roots of the
maximal substituted subtrees — a node is reported if and only if its
`fromSubstitution` flag is true and no node above it on the traversal path is
itself marked (regardless of that ancestor's `sourceId`); every reported node
carries `fromSubstitution = true` and is grouped under its own `sourceId`. -/
theorem c5_getSubstitutions_outermost (e : Expr) :
    subsListAux e false = outermostMarked e ∧
    (outermostMarked e).all (fun p => p.2.fromSub && decide (p.1 = p.2.sourceIdOf)) = true ∧
    ∀ sid, getSubstitutions e sid =
      (((outermostMarked e).filter (fun p => p.1 = sid)).map (fun p => p.2)) := by
  refine ⟨subsListAux_eq_outermostMarked e, outermostMarked_entries e, fun sid => ?_⟩
  simp [getSubstitutions, subsListAux_eq_outermostMarked]

/-!
Duplication detection (claim C6). The claim composes `reduceAt` directly with
`parse`, but `parse` assigns no redex ids (every Application id is null), so
`reduceAt(parse(...), 1)` matches nothing and no-ops; the intended pipeline
numbers the redexes first.
-/

deriving instance DecidableEq for Except

/-- Counterexample to claim C6 as stated: on the freshly parsed tree of
`(\x.x x) arg` — whose Application ids are all null — `reduceAt` with target 1
returns the tree unchanged; the result is still the original redex (not
`(arg arg)`) and carries zero provenance-tagged nodes rather than 2. -/
theorem c6_duplication_counterexample :
    parse "(\\x.x x) arg" =
      .ok (.app (.abs "x" (.app (.var "x" false none) (.var "x" false none) none false none)
            false none) (.var "arg" false none) none false none) ∧
    reduceAt (.app (.abs "x" (.app (.var "x" false none) (.var "x" false none) none false none)
            false none) (.var "arg" false none) none false none) (some 1) =
      .app (.abs "x" (.app (.var "x" false none) (.var "x" false none) none false none)
            false none) (.var "arg" false none) none false none ∧
    subsListAux (.app (.abs "x" (.app (.var "x" false none) (.var "x" false none) none false none)
            false none) (.var "arg" false none) none false none) false = [] ∧
    eraseMeta (reduceAt (.app (.abs "x" (.app (.var "x" false none) (.var "x" false none) none false none)
            false none) (.var "arg" false none) none false none) (some 1)) ≠
      .app (.var "arg" false none) (.var "arg" false none) none false none := by
  refine ⟨by decide, by decide, by decide, by decide⟩

/-- Claim C6, amended: after numbering the redexes of `parse("(\x.x x) arg")`,
reducing at id 1 yields `(arg arg)`, and the result carries exactly 2
provenance-tagged nodes, both grouped under the single `sourceId` 1. -/
theorem c6_duplication_amended :
    parse "(\\x.x x) arg" =
      .ok (.app (.abs "x" (.app (.var "x" false none) (.var "x" false none) none false none)
            false none) (.var "arg" false none) none false none) ∧
    reduceAt (numberRedexes (.app (.abs "x" (.app (.var "x" false none) (.var "x" false none)
            none false none) false none) (.var "arg" false none) none false none)) (some 1) =
      .app (.var "arg" true (some 1)) (.var "arg" true (some 1)) none false none ∧
    getSubstitutions (.app (.var "arg" true (some 1)) (.var "arg" true (some 1)) none false none)
        (some 1) =
      [.var "arg" true (some 1), .var "arg" true (some 1)] ∧
    subsListAux (.app (.var "arg" true (some 1)) (.var "arg" true (some 1)) none false none) false =
      [(some 1, .var "arg" true (some 1)), (some 1, .var "arg" true (some 1))] ∧
    eraseMeta (.app (.var "arg" true (some 1)) (.var "arg" true (some 1)) none false none) =
      .app (.var "arg" false none) (.var "arg" false none) none false none := by
  refine ⟨by decide, by decide, by decide, by decide, by decide⟩

/-!
Parse failure boundary (claim C7).
-/

/-- Claim C7: each of the six malformed inputs makes `parse` fail with an
error value carrying a human-readable message and the offending character
offset, rather than returning an Expression. -/
theorem c7_parse_error_boundary :
    parse "(" = .error ⟨"Expected variable name", 1⟩ ∧
    parse ")" = .error ⟨"Unexpected character \x27)\x27", 0⟩ ∧
    parse "λx" = .error ⟨"Expected \x27.\x27 after lambda parameter", 2⟩ ∧
    parse "λ.x" = .error ⟨"Expected variable name", 1⟩ ∧
    parse "" = .error ⟨"Expected variable name", 0⟩ ∧
    parse "   " = .error ⟨"Expected variable name", 0⟩ := by
  refine ⟨by decide, by decide, by decide, by decide, by decide, by decide⟩

/-!
Fresh-name generation (claim C9).
-/

theorem primes_length (k : Nat) : (primes k).length = k := by
  simp [primes, String.length]

theorem append_primes_zero (s : String) : s ++ primes 0 = s := by
  apply String.ext
  simp [primes, String.data_append]

theorem append_prime_primes (s : String) (j : Nat) :
    (s ++ "\x27") ++ primes j = s ++ primes (j + 1) := by
  apply String.ext
  simp [primes, String.data_append, List.replicate_succ]

/-- Among the first `avoid.card + 1` candidate names some one is free: the
candidates have pairwise distinct lengths, so they cannot all sit inside
`avoid`. -/
theorem exists_fresh_candidate (s : String) (avoid : Finset String) :
    ∃ j, j < avoid.card + 1 ∧ (s ++ primes j) ∉ avoid := by
  by_contra h
  push_neg at h
  have hinj : Set.InjOn (fun j => s ++ primes j) (Finset.range (avoid.card + 1)) := by
    intro a _ b _ hab
    have hlen := congrArg String.length hab
    simpa [String.length_append, primes_length] using hlen
  have hsub : (Finset.range (avoid.card + 1)).image (fun j => s ++ primes j) ⊆ avoid := by
    intro x hx
    obtain ⟨j, hj, rfl⟩ := Finset.mem_image.mp hx
    exact h j (Finset.mem_range.mp hj)
  have hcard := Finset.card_le_card hsub
  rw [Finset.card_image_of_injOn hinj, Finset.card_range] at hcard
  omega

theorem freshNameAux_spec (fuel : Nat) :
    ∀ (s : String) (avoid : Finset String),
      (∃ j, j < fuel ∧ (s ++ primes j) ∉ avoid) →
      ∃ k, freshNameAux fuel s avoid = s ++ primes k ∧ (s ++ primes k) ∉ avoid ∧
        ∀ j, j < k → (s ++ primes j) ∈ avoid := by
  induction fuel with
  | zero =>
    intro s avoid h
    obtain ⟨j, hj, _⟩ := h
    omega
  | succ f ih =>
    intro s avoid h
    by_cases hmem : s ∈ avoid
    · have h' : ∃ j, j < f ∧ ((s ++ "\x27") ++ primes j) ∉ avoid := by
        obtain ⟨j, hj, hnot⟩ := h
        cases j with
        | zero =>
          rw [append_primes_zero] at hnot
          exact absurd hmem hnot
        | succ j' =>
          refine ⟨j', by omega, ?_⟩
          rw [append_prime_primes]
          exact hnot
      obtain ⟨k, hk1, hk2, hk3⟩ := ih (s ++ "\x27") avoid h'
      rw [append_prime_primes] at hk2
      refine ⟨k + 1, ?_, hk2, ?_⟩
      · rw [show freshNameAux (f + 1) s avoid = freshNameAux f (s ++ "\x27") avoid from by
          simp [freshNameAux, hmem]]
        rw [hk1, append_prime_primes]
      · intro j hj
        cases j with
        | zero => rw [append_primes_zero]; exact hmem
        | succ j' =>
          rw [show s ++ primes (j' + 1) = (s ++ "\x27") ++ primes j' from
            (append_prime_primes s j').symm]
          exact hk3 j' (by omega)
    · refine ⟨0, ?_, ?_, ?_⟩
      · rw [show freshNameAux (f + 1) s avoid = s from by simp [freshNameAux, hmem]]
        exact (append_primes_zero s).symm
      · rw [append_primes_zero]; exact hmem
      · intro j hj; omega

/-- Claim C9: `freshName(base, avoidSet)` terminates and returns `base` with
the minimal number of trailing apostrophes appended such that the result is
absent from `avoidSet`. Determinism and termination are intrinsic to the
embedding: `freshName` is a total function, and this theorem shows the fuel
bound `avoid.card + 1` always reaches a free name. -/
theorem c9_freshName_minimal (base : String) (avoid : Finset String) :
    ∃ k, freshName base avoid = base ++ primes k ∧ (base ++ primes k) ∉ avoid ∧
      ∀ j, j < k → (base ++ primes j) ∈ avoid :=
  freshNameAux_spec (avoid.card + 1) base avoid (exists_fresh_candidate base avoid)

/-- Witness for C9 at `base = "x"`, `avoid = {"x"}` (a concrete instantiation
of the characterization). -/
theorem c9_freshName_witness :
    ∃ k, freshName "x" ({"x"} : Finset String) = "x" ++ primes k ∧
      ("x" ++ primes k) ∉ ({"x"} : Finset String) ∧
      ∀ j, j < k → ("x" ++ primes j) ∈ ({"x"} : Finset String) :=
  c9_freshName_minimal "x" {"x"}

/-!
Substitution machinery (claim C1). The fueled definition is first shown to be
fuel-insensitive at or above `size e`, which recovers the recursion equations
of the JS function; capture avoidance is then the free-variable
characterization proved by strong induction on the node count.
-/

theorem Expr.size_clone (e : Expr) (m : Bool) (s : Option Nat) :
    (e.clone m s).size = e.size := by
  induction e <;> simp [Expr.clone, Expr.size, *]

theorem freeVariables_clone (e : Expr) (m : Bool) (s : Option Nat) :
    freeVariables (e.clone m s) = freeVariables e := by
  induction e <;> simp [Expr.clone, freeVariables, *]

theorem freshName_not_mem (base : String) (avoid : Finset String) :
    freshName base avoid ∉ avoid := by
  obtain ⟨k, h1, h2, _⟩ :=
    freshNameAux_spec (avoid.card + 1) base avoid (exists_fresh_candidate base avoid)
  rw [freshName, h1]
  exact h2

/-- Substituting a Variable for a variable preserves the node count (the
renaming performed inside the capture case of `substitute`). -/
theorem substituteF_var_size : ∀ n : Nat, ∀ (b : Expr) (v nm : String) (bf : Bool)
    (bs : Option Nat) (m : Bool) (s : Option Nat), b.size ≤ n →
    (substituteF n b v (.var nm bf bs) m s).size = b.size := by
  intro n
  induction n with
  | zero =>
    intro b v nm bf bs m s hle
    have := b.size_pos
    omega
  | succ n ih =>
    intro b v nm bf bs m s hle
    cases b with
    | var bn bfs bsid =>
      by_cases h : bn = v <;> simp [substituteF, h, Expr.clone, Expr.size]
    | app f a id bfs bsid =>
      have hf : f.size ≤ n := by have := a.size_pos; simp [Expr.size] at hle; omega
      have ha : a.size ≤ n := by have := f.size_pos; simp [Expr.size] at hle; omega
      simp [substituteF, Expr.size, ih _ _ _ _ _ _ _ hf, ih _ _ _ _ _ _ _ ha]
    | abs p body bfs bsid =>
      have hb : body.size ≤ n := by simp [Expr.size] at hle; omega
      by_cases hp : p = v
      · simp [substituteF, hp, Expr.size]
      · by_cases hc : p ∈ freeVariables (Expr.var nm bf bs)
        · have hrb : (substituteF n body p
              (.var (freshName p (insert v (freeVariables (Expr.var nm bf bs) ∪ freeVariables body))) false none)
              false none).size = body.size := ih _ _ _ _ _ _ _ hb
          have hrb' : (substituteF n body p
              (.var (freshName p (insert v (freeVariables (Expr.var nm bf bs) ∪ freeVariables body))) false none)
              false none).size ≤ n := by omega
          simp only [substituteF, hp, if_false, hc, if_true, Expr.size]
          rw [ih _ _ _ _ _ _ _ hrb', hrb]
        · simp only [substituteF, hp, if_false, hc, if_true, Expr.size]
          rw [ih _ _ _ _ _ _ _ hb]

/-- `substituteF` does not depend on the fuel once the fuel covers the node
count: the embedding computes the same tree as the JS recursion. -/
theorem substituteF_congr : ∀ n₁ n₂ : Nat, ∀ (b : Expr) (v : String) (r : Expr)
    (m : Bool) (s : Option Nat), b.size ≤ n₁ → b.size ≤ n₂ →
    substituteF n₁ b v r m s = substituteF n₂ b v r m s := by
  intro n₁
  induction n₁ with
  | zero =>
    intro n₂ b v r m s h1 h2
    have := b.size_pos
    omega
  | succ n ih =>
    intro n₂ b v r m s h1 h2
    cases n₂ with
    | zero =>
      have := b.size_pos
      omega
    | succ n' =>
      cases b with
      | var bn bfs bsid => simp [substituteF]
      | app f a id bfs bsid =>
        have hf1 : f.size ≤ n := by have := a.size_pos; simp [Expr.size] at h1; omega
        have ha1 : a.size ≤ n := by have := f.size_pos; simp [Expr.size] at h1; omega
        have hf2 : f.size ≤ n' := by have := a.size_pos; simp [Expr.size] at h2; omega
        have ha2 : a.size ≤ n' := by have := f.size_pos; simp [Expr.size] at h2; omega
        simp [substituteF, ih n' f v r m s hf1 hf2, ih n' a v r m s ha1 ha2]
      | abs p body bfs bsid =>
        have hb1 : body.size ≤ n := by simp [Expr.size] at h1; omega
        have hb2 : body.size ≤ n' := by simp [Expr.size] at h2; omega
        by_cases hp : p = v
        · simp [substituteF, hp]
        · by_cases hc : p ∈ freeVariables r
          · have hren := ih n' body p
              (.var (freshName p (insert v (freeVariables r ∪ freeVariables body))) false none)
              false none hb1 hb2
            have hsz : (substituteF n body p
                (.var (freshName p (insert v (freeVariables r ∪ freeVariables body))) false none)
                false none).size = body.size := substituteF_var_size n body _ _ _ _ _ _ hb1
            simp only [substituteF, hp, if_false, hc, if_true]
            rw [hren, ih n' _ v r m s (by rw [← hren, hsz]; omega)
              (by rw [← hren, hsz]; omega)]
          · simp only [substituteF, hp, if_false, hc, if_true]
            rw [ih n' body v r m s hb1 hb2]

theorem substitute_var (nm : String) (fs : Bool) (sid : Option Nat) (v : String)
    (r : Expr) (m : Bool) (s : Option Nat) :
    substitute (.var nm fs sid) v r m s =
      if nm = v then r.clone m s else .var nm fs sid := by
  simp [substitute, Expr.size, substituteF]

theorem substitute_app (f a : Expr) (id : Option Nat) (fs : Bool) (sid : Option Nat)
    (v : String) (r : Expr) (m : Bool) (s : Option Nat) :
    substitute (.app f a id fs sid) v r m s =
      .app (substitute f v r m s) (substitute a v r m s) id fs sid := by
  have hsz : (Expr.app f a id fs sid).size = (f.size + a.size) + 1 := by
    simp only [Expr.size]
    omega
  simp only [substitute, hsz, substituteF]
  rw [substituteF_congr (f.size + a.size) f.size f v r m s (Nat.le_add_right _ _) (Nat.le_refl _),
    substituteF_congr (f.size + a.size) a.size a v r m s (Nat.le_add_left _ _) (Nat.le_refl _)]

theorem substitute_abs_shadow (p : String) (b : Expr) (fs : Bool) (sid : Option Nat)
    (v : String) (r : Expr) (m : Bool) (s : Option Nat) (h : p = v) :
    substitute (.abs p b fs sid) v r m s = .abs p b fs sid := by
  subst h
  have hsz : (Expr.abs p b fs sid).size = b.size + 1 := by
    simp only [Expr.size]
    omega
  simp [substitute, hsz, substituteF]

theorem substitute_abs_plain (p : String) (b : Expr) (fs : Bool) (sid : Option Nat)
    (v : String) (r : Expr) (m : Bool) (s : Option Nat) (h : ¬p = v)
    (hc : p ∉ freeVariables r) :
    substitute (.abs p b fs sid) v r m s = .abs p (substitute b v r m s) fs sid := by
  have hsz : (Expr.abs p b fs sid).size = b.size + 1 := by
    simp only [Expr.size]
    omega
  simp [substitute, hsz, substituteF, h, hc]

theorem substitute_abs_capture (p : String) (b : Expr) (fs : Bool) (sid : Option Nat)
    (v : String) (r : Expr) (m : Bool) (s : Option Nat) (h : ¬p = v)
    (hc : p ∈ freeVariables r) :
    substitute (.abs p b fs sid) v r m s =
      .abs (freshName p (insert v (freeVariables r ∪ freeVariables b)))
        (substitute
          (substitute b p
            (.var (freshName p (insert v (freeVariables r ∪ freeVariables b))) false none)
            false none)
          v r m s) fs sid := by
  have hsz : (Expr.abs p b fs sid).size = b.size + 1 := by
    simp only [Expr.size]
    omega
  have hsz2 : (substituteF b.size b p
      (.var (freshName p (insert v (freeVariables r ∪ freeVariables b))) false none)
      false none).size = b.size :=
    substituteF_var_size b.size b _ _ _ _ _ _ (Nat.le_refl _)
  simp only [substitute, hsz, substituteF, h, hc, if_true, if_false, ite_true, ite_false,
    eq_self_iff_true, not_false_iff]
  rw [substituteF_congr b.size (substituteF b.size b p
      (.var (freshName p (insert v (freeVariables r ∪ freeVariables b))) false none)
      false none).size _ v r m s (by omega) (Nat.le_refl _)]

/-- Free variables after substitution: the free variables of the target minus
the substituted name, plus (when the name actually occurred free) the free
variables of the replacement — in particular no free variable of the
replacement is captured by a binder of the target. -/
theorem mem_fv_subst : ∀ N : Nat, ∀ e : Expr, e.size ≤ N →
    ∀ (v : String) (r : Expr) (m : Bool) (s : Option Nat) (x : String),
      x ∈ freeVariables (substitute e v r m s) ↔
        (x ∈ freeVariables e ∧ x ≠ v) ∨ (v ∈ freeVariables e ∧ x ∈ freeVariables r) := by
  intro N
  induction N with
  | zero =>
    intro e he
    have := e.size_pos
    omega
  | succ N ih =>
    intro e he v r m s x
    cases e with
    | var nm fs sid =>
      by_cases h : nm = v
      · subst h
        rw [substitute_var]
        simp [freeVariables_clone, freeVariables]
      · rw [substitute_var]
        simp only [if_neg h, freeVariables, Finset.mem_singleton]
        constructor
        · intro hx
          exact Or.inl ⟨hx, fun hxv => h (hx.symm.trans hxv)⟩
        · rintro (⟨hx, _⟩ | ⟨hv, _⟩)
          · exact hx
          · exact absurd hv.symm h
    | app f a id fs sid =>
      have hf : f.size ≤ N := by
        have := a.size_pos
        simp only [Expr.size] at he
        omega
      have ha : a.size ≤ N := by
        have := f.size_pos
        simp only [Expr.size] at he
        omega
      rw [substitute_app]
      simp only [freeVariables, Finset.mem_union]
      rw [ih f hf v r m s x, ih a ha v r m s x]
      tauto
    | abs p b fs sid =>
      have hb : b.size ≤ N := by
        simp only [Expr.size] at he
        omega
      by_cases h : p = v
      · rw [substitute_abs_shadow p b fs sid v r m s h]
        subst h
        simp only [freeVariables, Finset.mem_erase]
        tauto
      · by_cases hc : p ∈ freeVariables r
        · rw [substitute_abs_capture p b fs sid v r m s h hc]
          have hP := freshName_not_mem p (insert v (freeVariables r ∪ freeVariables b))
          simp only [Finset.mem_insert, Finset.mem_union] at hP
          push_neg at hP
          obtain ⟨hPv, hPr, hPb⟩ := hP
          have hszrb : (substitute b p
              (.var (freshName p (insert v (freeVariables r ∪ freeVariables b))) false none)
              false none).size = b.size :=
            substituteF_var_size b.size b _ _ _ _ _ _ (Nat.le_refl _)
          have h1 := ih (substitute b p
              (.var (freshName p (insert v (freeVariables r ∪ freeVariables b))) false none)
              false none) (by omega) v r m s x
          have h2x := ih b hb p
            (.var (freshName p (insert v (freeVariables r ∪ freeVariables b))) false none)
            false none x
          have h2v := ih b hb p
            (.var (freshName p (insert v (freeVariables r ∪ freeVariables b))) false none)
            false none v
          simp only [freeVariables, Finset.mem_singleton] at h1 h2x h2v
          simp only [freeVariables, Finset.mem_erase]
          rw [h1, h2x, h2v]
          have hvp : v ≠ p := fun hv => h hv.symm
          have hvP : ¬v = freshName p (insert v (freeVariables r ∪ freeVariables b)) :=
            fun hv => hPv hv.symm
          have hxr : x ∈ freeVariables r →
              ¬x = freshName p (insert v (freeVariables r ∪ freeVariables b)) :=
            fun hx hxeq => hPr (hxeq ▸ hx)
          have hxb : x ∈ freeVariables b →
              ¬x = freshName p (insert v (freeVariables r ∪ freeVariables b)) :=
            fun hx hxeq => hPb (hxeq ▸ hx)
          constructor
          · rintro ⟨hxP, (⟨(⟨hxb1, hxp1⟩ | ⟨hpb1, hxeq1⟩), hxv1⟩ |
              ⟨(⟨hvb1, hvp1⟩ | ⟨hpb1, hveq1⟩), hxr1⟩)⟩
            · exact Or.inl ⟨⟨hxp1, hxb1⟩, hxv1⟩
            · exact absurd hxeq1 hxP
            · exact Or.inr ⟨⟨hvp1, hvb1⟩, hxr1⟩
            · exact absurd hveq1 hvP
          · rintro (⟨⟨hxp1, hxb1⟩, hxv1⟩ | ⟨⟨hvp1, hvb1⟩, hxr1⟩)
            · exact ⟨hxb hxb1, Or.inl ⟨Or.inl ⟨hxb1, hxp1⟩, hxv1⟩⟩
            · exact ⟨hxr hxr1, Or.inr ⟨Or.inl ⟨hvb1, hvp1⟩, hxr1⟩⟩
        · rw [substitute_abs_plain p b fs sid v r m s h hc]
          simp only [freeVariables, Finset.mem_erase]
          rw [ih b hb v r m s x]
          have hvp : v ≠ p := fun hv => h hv.symm
          have hxr : x ∈ freeVariables r → x ≠ p := fun hx hxp => hc (hxp ▸ hx)
          constructor
          · rintro ⟨hxp1, (⟨hxb1, hxv1⟩ | ⟨hvb1, hxr1⟩)⟩
            · exact Or.inl ⟨⟨hxp1, hxb1⟩, hxv1⟩
            · exact Or.inr ⟨⟨hvp, hvb1⟩, hxr1⟩
          · rintro (⟨⟨hxp1, hxb1⟩, hxv1⟩ | ⟨⟨hvp1, hvb1⟩, hxr1⟩)
            · exact ⟨hxp1, Or.inl ⟨hxb1, hxv1⟩⟩
            · exact ⟨hxr hxr1, Or.inr ⟨hvb1, hxr1⟩⟩

/-- Claim C1: substitution is capture-avoiding. First conjunct: for every
expression, variable name and replacement (and any provenance arguments), the
free variables of the result are the target's free variables minus the
substituted name, together with the replacement's free variables whenever the
name occurred free — so a free variable of the replacement never becomes bound
by an inner Abstraction. The remaining conjuncts settle the quoted instance:
reducing `(λx.(λx'.x x')) x'` — the argument renamed to collide with the inner
binder — renames the inner binder to `x''` via `freshName`, and the
substituted `x'` stays free in the result instead of being bound. -/
theorem c1_substitute_capture_avoiding :
    (∀ (e : Expr) (v : String) (r : Expr) (m : Bool) (s : Option Nat) (x : String),
      x ∈ freeVariables (substitute e v r m s) ↔
        (x ∈ freeVariables e ∧ x ≠ v) ∨ (v ∈ freeVariables e ∧ x ∈ freeVariables r)) ∧
    reduceAt (numberRedexes (.app
        (.abs "x" (.abs "x\x27" (.app (.var "x" false none) (.var "x\x27" false none)
          none false none) false none) false none)
        (.var "x\x27" false none) none false none)) (some 1) =
      .abs "x\x27\x27" (.app (.var "x\x27" true (some 1)) (.var "x\x27\x27" false none)
        none false none) false none ∧
    "x\x27" ∈ freeVariables (.abs "x\x27\x27" (.app (.var "x\x27" true (some 1))
      (.var "x\x27\x27" false none) none false none) false none) :=
  ⟨fun e v r m s x => mem_fv_subst e.size e (Nat.le_refl _) v r m s x, by decide, by decide⟩

/-!
Freshly parsed trees are provenance-free (claim C10): every node the scanner
constructs uses the constructor defaults `false`/`null`/`null`.
-/

theorem pristine_parse_aux : ∀ n : Nat,
    (∀ s r, parseAtomF n s = .ok r → pristine r.1 = true) ∧
    (∀ s r, parseExprF n s = .ok r → pristine r.1 = true) ∧
    (∀ acc s r, pristine acc = true → parseLoopF n acc s = .ok r → pristine r.1 = true) := by
  intro n
  induction n with
  | zero =>
    refine ⟨?_, ?_, ?_⟩
    · intro s r h
      simp [parseAtomF] at h
    · intro s r h
      simp [parseExprF] at h
    · intro acc s r hacc h
      simp [parseLoopF] at h
  | succ n ih =>
    obtain ⟨ihA, ihE, ihL⟩ := ih
    refine ⟨?_, ?_, ?_⟩
    · intro s0 r h
      rw [parseAtomF] at h
      by_cases h1 : (skipWs s0).rest.head? = some '('
      · rw [if_pos h1] at h
        cases hE : parseExprF n (skipWs s0).advance with
        | error e =>
          rw [hE] at h
          exact absurd h (by simp)
        | ok q =>
          obtain ⟨inner, s1⟩ := q
          rw [hE] at h
          dsimp only at h
          by_cases h2 : (skipWs s1).rest.head? = some ')'
          · rw [if_pos h2] at h
            cases h
            exact ihE _ (inner, s1) hE
          · rw [if_neg h2] at h
            exact absurd h (by simp)
      · rw [if_neg h1] at h
        by_cases h2 : isLambdaStartO (skipWs s0).rest.head? = true
        · rw [if_pos h2] at h
          cases hV : parseVarName (skipWs (skipWs s0).advance) with
          | error e =>
            rw [hV] at h
            exact absurd h (by simp)
          | ok q =>
            obtain ⟨param, s2⟩ := q
            rw [hV] at h
            dsimp only at h
            by_cases h3 : (skipWs s2).rest.head? = some '.'
            · rw [if_pos h3] at h
              cases hE : parseExprF n (skipWs s2).advance with
              | error e =>
                rw [hE] at h
                exact absurd h (by simp)
              | ok q2 =>
                obtain ⟨body, s4⟩ := q2
                rw [hE] at h
                dsimp only at h
                cases h
                have hpb := ihE _ _ hE
                simpa [pristine] using hpb
            · rw [if_neg h3] at h
              exact absurd h (by simp)
        · rw [if_neg h2] at h
          by_cases h3 : isVariableStartO (skipWs s0).rest.head? = true
          · rw [if_pos h3] at h
            cases hV : parseVarName (skipWs s0) with
            | error e =>
              rw [hV] at h
              exact absurd h (by simp)
            | ok q =>
              obtain ⟨nm, s1⟩ := q
              rw [hV] at h
              dsimp only at h
              cases h
              rfl
          · rw [if_neg h3] at h
            cases hc : (skipWs s0).rest.head? with
            | some c =>
              rw [hc] at h
              exact absurd h (by simp)
            | none =>
              rw [hc] at h
              exact absurd h (by simp)
    · intro s0 r h
      rw [parseExprF] at h
      cases hA : parseAtomF n (skipWs s0) with
      | error e =>
        rw [hA] at h
        exact absurd h (by simp)
      | ok q =>
        obtain ⟨a, s1⟩ := q
        rw [hA] at h
        dsimp only at h
        exact ihL _ _ _ (ihA _ _ hA) h
    · intro acc s0 r hacc h
      rw [parseLoopF] at h
      by_cases h1 : (decide ¬(skipWs s0).rest = [] && decide ¬(skipWs s0).rest.head? = some ')'
          && isAtomStartO (skipWs s0).rest.head?) = true
      · rw [if_pos h1] at h
        cases hA : parseAtomF n (skipWs s0) with
        | error e =>
          rw [hA] at h
          exact absurd h (by simp)
        | ok q =>
          obtain ⟨a, s1⟩ := q
          rw [hA] at h
          dsimp only at h
          refine ihL _ _ _ ?_ h
          have hpa := ihA _ _ hA
          simp only [pristine] at hpa ⊢
          simp [hacc, hpa]
      · rw [if_neg h1] at h
        cases h
        exact hacc

/-- Claim C10: any Expression returned by `parse` is pristine: every node has
`fromSubstitution = false` and `sourceId = null`, and every Application has
`id = null`. -/
theorem c10_parse_pristine (input : String) (e : Expr) (h : parse input = .ok e) :
    pristine e = true := by
  rw [parse] at h
  cases hE : parseExprF (parseFuel (jsTrim input.data)) ⟨jsTrim input.data, 0⟩ with
  | error err =>
    rw [hE] at h
    exact absurd h (by simp)
  | ok q =>
    obtain ⟨e', s⟩ := q
    rw [hE] at h
    dsimp only at h
    by_cases h1 : (skipWs s).rest = []
    · rw [if_pos h1] at h
      cases h
      exact (pristine_parse_aux _).2.1 _ _ hE
    · rw [if_neg h1] at h
      exact absurd h (by simp)

/-- Witness for C10 at the input `"x"`. -/
theorem c10_parse_pristine_witness :
    parse "x" = .ok (.var "x" false none) ∧ pristine (.var "x" false none) = true :=
  ⟨by decide, c10_parse_pristine "x" (.var "x" false none) (by decide)⟩

/-!
Round-trip (claim C2). `toPlainString` parenthesizes every Application and
every Abstraction sitting under an Application, so the grammar reads the
serialization back deterministically. The proof runs the scanner symbolically
over the serialized text: `parse_ts_main` below shows `parseAtom`/`parseExpr`
consume exactly the serialization of a subterm and return its
provenance-erased copy.
-/

/-- How a subterm is rendered in the `func`/`arg` slot of an Application (and
how any non-lambda term is rendered as an atom): Abstractions get wrapping
parentheses, Applications already carry their own. -/
def atomL (e : Expr) : List Char :=
  if e.isAbs then '(' :: (toPlainString e).data ++ [')'] else (toPlainString e).data

/-- The text after a serialized subterm in any context: end of input or a
closing parenthesis. -/
def restClose (rest : List Char) : Prop :=
  rest = [] ∨ ∃ t, rest = ')' :: t

/-- The text cannot extend a maximal-munch identifier. -/
def headNotVarChar : List Char → Prop
  | [] => True
  | c :: _ => isVariableCharC c = false

mutual

/-- Scanner fuel sufficient for `parseAtomF` on the atom rendering of `e`. -/
def needA : Expr → Nat
  | .var _ _ _ => 1
  | .abs _ b _ _ => 3 + needE b
  | .app f a _ _ _ => 2 + max (needA f) (1 + needA a)

/-- Scanner fuel sufficient for `parseExprF` on the serialization of `e`. -/
def needE : Expr → Nat
  | .var _ _ _ => 2
  | .abs _ b _ _ => 2 + needE b
  | .app f a _ _ _ => 3 + max (needA f) (1 + needA a)

end

theorem mk_data (s : String) : String.mk s.data = s := by
  cases s
  rfl

theorem ts_var_data (n : String) (fs : Bool) (sid : Option Nat) :
    (toPlainString (.var n fs sid)).data = n.data := rfl

theorem ts_abs_data (p : String) (b : Expr) (fs : Bool) (sid : Option Nat) :
    (toPlainString (.abs p b fs sid)).data =
      'λ' :: (p.data ++ '.' :: (toPlainString b).data) := by
  show ("λ" ++ p ++ "." ++ toPlainString b).data = _
  simp [String.data_append]

theorem ts_app_data (f a : Expr) (id : Option Nat) (fs : Bool) (sid : Option Nat) :
    (toPlainString (.app f a id fs sid)).data =
      '(' :: (atomL f ++ ' ' :: (atomL a ++ [')'])) := by
  show ("(" ++ (if f.isAbs then "(" ++ toPlainString f ++ ")" else toPlainString f) ++ " "
      ++ (if a.isAbs then "(" ++ toPlainString a ++ ")" else toPlainString a) ++ ")").data = _
  cases hf : f.isAbs <;> cases ha : a.isAbs <;>
    simp [String.data_append, atomL, hf, ha]

theorem varStart_ne {c x : Char} (h : isVariableStartC c = true)
    (hx : isVariableStartC x = false) : ¬c = x := by
  intro he
  subst he
  rw [h] at hx
  exact absurd hx (by decide)

theorem varStart_not_ws {c : Char} (h : isVariableStartC c = true) : isWsC c = false := by
  simp only [isWsC, Bool.or_eq_false_iff, decide_eq_false_iff_not]
  refine ⟨⟨⟨⟨⟨?_, ?_⟩, ?_⟩, ?_⟩, ?_⟩, ?_⟩ <;> exact varStart_ne h (by decide)

theorem varStart_ne_lparen {c : Char} (h : isVariableStartC c = true) : ¬c = '(' :=
  varStart_ne h (by decide)

theorem varStart_ne_rparen {c : Char} (h : isVariableStartC c = true) : ¬c = ')' :=
  varStart_ne h (by decide)

theorem varStart_not_lambdaStart {c : Char} (h : isVariableStartC c = true) :
    isLambdaStartC c = false := by
  simp only [isLambdaStartC, Bool.or_eq_false_iff, decide_eq_false_iff_not]
  exact ⟨varStart_ne h (by decide), varStart_ne h (by decide)⟩

theorem skipWs_cons_notWs {c : Char} (h : isWsC c = false) (l : List Char) (p : Nat) :
    skipWs ⟨c :: l, p⟩ = ⟨c :: l, p⟩ := by
  simp [skipWs, skipWsL, h]

theorem skipWs_cons_ws {c : Char} (h : isWsC c = true) (l : List Char) (p : Nat) :
    skipWs ⟨c :: l, p⟩ = skipWs ⟨l, p + 1⟩ := by
  simp [skipWs, skipWsL, h]

theorem skipWs_nil (p : Nat) : skipWs ⟨[], p⟩ = ⟨[], p⟩ := rfl

theorem spanName_append (l₁ l₂ : List Char) (h1 : ∀ c ∈ l₁, isVariableCharC c = true)
    (h2 : headNotVarChar l₂) : spanName (l₁ ++ l₂) = (l₁, l₂) := by
  induction l₁ with
  | nil =>
    cases l₂ with
    | nil => rfl
    | cons c t =>
      simp only [headNotVarChar] at h2
      simp [spanName, h2]
  | cons c t ih =>
    have hc : isVariableCharC c = true := h1 c (by simp)
    have ht : ∀ x ∈ t, isVariableCharC x = true := fun x hx => h1 x (by simp [hx])
    simp [spanName, hc, ih ht]

theorem validName_parts (nm : String) (h : validName nm = true) :
    ∃ c t, nm.data = c :: t ∧ isVariableStartC c = true ∧
      ∀ x ∈ nm.data, isVariableCharC x = true := by
  unfold validName at h
  cases hd : nm.data with
  | nil => rw [hd] at h; simp at h
  | cons c t =>
    rw [hd] at h
    simp only [Bool.and_eq_true, List.all_eq_true, decide_eq_true_eq] at h
    exact ⟨c, t, rfl, h.1, fun x hx => h.2 x hx⟩

theorem parseVarName_name (nm : String) (rest : List Char) (p : Nat)
    (hv : validName nm = true) (h2 : headNotVarChar rest) :
    parseVarName ⟨nm.data ++ rest, p⟩ = .ok (nm, ⟨rest, p + nm.data.length⟩) := by
  obtain ⟨c, t, hd, _, hall⟩ := validName_parts nm hv
  rw [parseVarName]
  simp only [spanName_append nm.data rest hall h2]
  rw [hd]
  simp [mk_data]
  rw [← hd, mk_data]

theorem parseLoopF_close (m : Nat) (acc : Expr) (rest : List Char) (q : Nat)
    (hm : 1 ≤ m) (hr : restClose rest) :
    parseLoopF m acc ⟨rest, q⟩ = .ok (acc, ⟨rest, q⟩) := by
  cases m with
  | zero => omega
  | succ m =>
    rcases hr with rfl | ⟨t, rfl⟩
    · rw [parseLoopF]
      simp [skipWs, skipWsL]
    · rw [parseLoopF]
      rw [skipWs_cons_notWs (by decide)]
      simp

theorem restClose_notVarChar {rest : List Char} (h : restClose rest) :
    headNotVarChar rest := by
  rcases h with rfl | ⟨t, rfl⟩
  · trivial
  · show isVariableCharC ')' = false
    decide

theorem parseAtomF_var (nm : String) (rest : List Char) (p m : Nat)
    (hv : validName nm = true) (hrest : headNotVarChar rest) :
    parseAtomF (m + 1) ⟨nm.data ++ rest, p⟩ =
      .ok (.var nm false none, ⟨rest, p + nm.data.length⟩) := by
  obtain ⟨c, t, hd, hstart, hall⟩ := validName_parts nm hv
  have hpv := parseVarName_name nm rest p hv hrest
  rw [parseAtomF]
  rw [hd]
  rw [hd] at hpv
  simp only [List.cons_append] at hpv ⊢
  rw [skipWs_cons_notWs (varStart_not_ws hstart)]
  simp only [List.head?_cons]
  rw [if_neg (by simpa using varStart_ne_lparen hstart)]
  rw [if_neg (by simp [isLambdaStartO, varStart_not_lambdaStart hstart])]
  rw [if_pos (by simp [isVariableStartO, hstart])]
  rw [hpv]

theorem parseAtomF_paren (m : Nat) (L rest : List Char) (p : Nat) (inner : Expr) (q : Nat)
    (hE : parseExprF m ⟨L ++ ')' :: rest, p + 1⟩ = .ok (inner, ⟨')' :: rest, q⟩)) :
    parseAtomF (m + 1) ⟨'(' :: (L ++ ')' :: rest), p⟩ = .ok (inner, ⟨rest, q + 1⟩) := by
  rw [parseAtomF]
  rw [skipWs_cons_notWs (by decide)]
  simp only [List.head?_cons]
  rw [if_pos trivial]
  have hadv : (PState.advance ⟨'(' :: (L ++ ')' :: rest), p⟩) = ⟨L ++ ')' :: rest, p + 1⟩ := rfl
  rw [hadv, hE]
  dsimp only
  rw [skipWs_cons_notWs (by decide)]
  simp only [List.head?_cons]
  rw [if_pos trivial]
  rfl

theorem parseAtomF_lambda (m : Nat) (pr : String) (B rest : List Char) (p : Nat)
    (body : Expr) (q : Nat) (hv : validName pr = true)
    (hE : parseExprF m ⟨B ++ rest, p + 1 + pr.data.length + 1⟩ = .ok (body, ⟨rest, q⟩)) :
    parseAtomF (m + 1) ⟨'λ' :: (pr.data ++ '.' :: (B ++ rest)), p⟩ =
      .ok (.abs pr body false none, ⟨rest, q⟩) := by
  obtain ⟨c, t, hd, hstart, hall⟩ := validName_parts pr hv
  rw [parseAtomF]
  rw [skipWs_cons_notWs (by decide)]
  simp only [List.head?_cons]
  rw [if_neg (by decide)]
  rw [if_pos (by decide)]
  have hadv : (PState.advance ⟨'λ' :: (pr.data ++ '.' :: (B ++ rest)), p⟩) =
      ⟨pr.data ++ '.' :: (B ++ rest), p + 1⟩ := rfl
  rw [hadv]
  have hskip : skipWs ⟨pr.data ++ '.' :: (B ++ rest), p + 1⟩ =
      ⟨pr.data ++ '.' :: (B ++ rest), p + 1⟩ := by
    rw [hd]
    simp only [List.cons_append]
    exact skipWs_cons_notWs (varStart_not_ws hstart) _ _
  rw [hskip]
  have hpv := parseVarName_name pr ('.' :: (B ++ rest)) (p + 1) hv (by
    show isVariableCharC '.' = false
    decide)
  rw [hpv]
  dsimp only
  rw [skipWs_cons_notWs (by decide)]
  simp only [List.head?_cons]
  rw [if_pos trivial]
  have hadv2 : (PState.advance ⟨'.' :: (B ++ rest), p + 1 + pr.data.length⟩) =
      ⟨B ++ rest, p + 1 + pr.data.length + 1⟩ := rfl
  rw [hadv2, hE]

theorem atomL_facts (e : Expr) (hw : wfExpr e = true) :
    ∃ c t, atomL e = c :: t ∧ isWsC c = false ∧ isAtomStartO (some c) = true ∧ ¬c = ')' := by
  cases e with
  | var nm fs sid =>
    obtain ⟨c, t, hd, hstart, _⟩ := validName_parts nm (by simpa [wfExpr] using hw)
    refine ⟨c, t, ?_, varStart_not_ws hstart, ?_, varStart_ne_rparen hstart⟩
    · simp [atomL, Expr.isAbs, ts_var_data, hd]
    · simp [isAtomStartO, isVariableStartO, hstart]
  | abs p b fs sid =>
    exact ⟨'(', (toPlainString (.abs p b fs sid)).data ++ [')'],
      by simp [atomL, Expr.isAbs], by decide, by decide, by decide⟩
  | app f a id fs sid =>
    refine ⟨'(', atomL f ++ ' ' :: (atomL a ++ [')']), ?_, by decide, by decide, by decide⟩
    simp [atomL, Expr.isAbs, ts_app_data]

theorem parseExprF_of_atom (m : Nat) (L rest : List Char) (p q : Nat) (ea : Expr)
    (hhead : ∃ c t, L = c :: t ∧ isWsC c = false)
    (hA : parseAtomF m ⟨L ++ rest, p⟩ = .ok (ea, ⟨rest, q⟩))
    (hm : 1 ≤ m) (hrest : restClose rest) :
    parseExprF (m + 1) ⟨L ++ rest, p⟩ = .ok (ea, ⟨rest, q⟩) := by
  rw [parseExprF]
  obtain ⟨c, t, rfl, hcw⟩ := hhead
  simp only [List.cons_append] at hA ⊢
  rw [skipWs_cons_notWs hcw]
  rw [hA]
  dsimp only
  exact parseLoopF_close m ea rest q hm hrest

theorem parseLoopF_space_atom (k : Nat) (acc ea : Expr) (Aa rest : List Char) (qf qa : Nat)
    (hfacts : ∃ c t, Aa = c :: t ∧ isWsC c = false ∧ isAtomStartO (some c) = true ∧ ¬c = ')')
    (hA : parseAtomF k ⟨Aa ++ ')' :: rest, qf + 1⟩ = .ok (ea, ⟨')' :: rest, qa⟩))
    (hk : 1 ≤ k) :
    parseLoopF (k + 1) acc ⟨' ' :: (Aa ++ ')' :: rest), qf⟩ =
      .ok (.app acc ea none false none, ⟨')' :: rest, qa⟩) := by
  rw [parseLoopF]
  rw [skipWs_cons_ws (by decide)]
  obtain ⟨c, t, rfl, hws, hat, hnr⟩ := hfacts
  simp only [List.cons_append] at hA ⊢
  simp only [skipWs_cons_notWs hws]
  rw [if_pos (by simp [hat, hnr])]
  rw [hA]
  dsimp only
  exact parseLoopF_close k _ (')' :: rest) qa hk (Or.inr ⟨rest, rfl⟩)

theorem needA_pos (e : Expr) : 1 ≤ needA e := by
  cases e <;> simp [needA] <;> omega

/-- Running the scanner over the serialization: `parseAtom` consumes exactly
the atom rendering of a well-formed term and `parseExpr` consumes exactly its
serialization, each returning the provenance-erased term, whenever the
following text cannot extend the parse (end of input or a closing
parenthesis). -/
theorem parse_ts_main (e : Expr) (hw : wfExpr e = true) :
    (∀ n p rest, needA e ≤ n → headNotVarChar rest →
      ∃ q, parseAtomF n ⟨atomL e ++ rest, p⟩ = .ok (eraseMeta e, ⟨rest, q⟩)) ∧
    (∀ n p rest, needE e ≤ n → restClose rest →
      ∃ q, parseExprF n ⟨(toPlainString e).data ++ rest, p⟩ = .ok (eraseMeta e, ⟨rest, q⟩)) := by
  induction e with
  | var nm fs sid =>
    have hv : validName nm = true := by simpa [wfExpr] using hw
    have hAL : atomL (Expr.var nm fs sid) = nm.data := by
      simp [atomL, Expr.isAbs, ts_var_data]
    obtain ⟨c, t, hd, hstart, hall⟩ := validName_parts nm hv
    constructor
    · intro n p rest hn hrest
      cases n with
      | zero => simp [needA] at hn
      | succ m =>
        rw [hAL]
        exact ⟨p + nm.data.length, parseAtomF_var nm rest p m hv hrest⟩
    · intro n p rest hn hrest
      simp only [needE] at hn
      cases n with
      | zero => omega
      | succ m =>
        cases m with
        | zero => omega
        | succ k =>
          refine ⟨p + nm.data.length, ?_⟩
          rw [ts_var_data]
          exact parseExprF_of_atom (k + 1) nm.data rest p (p + nm.data.length)
            (.var nm false none) ⟨c, t, hd, varStart_not_ws hstart⟩
            (parseAtomF_var nm rest p k hv (restClose_notVarChar hrest))
            (by omega) hrest
  | abs pr b fs sid ih =>
    have hvp : validName pr = true := by
      simp only [wfExpr, Bool.and_eq_true] at hw
      exact hw.1
    have hwb : wfExpr b = true := by
      simp only [wfExpr, Bool.and_eq_true] at hw
      exact hw.2
    have ihE := (ih hwb).2
    have hE_abs : ∀ n p rest, needE (Expr.abs pr b fs sid) ≤ n → restClose rest →
        ∃ q, parseExprF n ⟨(toPlainString (Expr.abs pr b fs sid)).data ++ rest, p⟩ =
          .ok (eraseMeta (Expr.abs pr b fs sid), ⟨rest, q⟩) := by
      intro n p rest hn hrest
      simp only [needE] at hn
      cases n with
      | zero => omega
      | succ m =>
        cases m with
        | zero => omega
        | succ k =>
          obtain ⟨qb, hEb⟩ := ihE k (p + 1 + pr.data.length + 1) rest (by omega) hrest
          have hatom := parseAtomF_lambda k pr (toPlainString b).data rest p
            (eraseMeta b) qb hvp hEb
          refine ⟨qb, ?_⟩
          rw [ts_abs_data]
          rw [parseExprF]
          simp only [List.cons_append, List.append_assoc]
          rw [skipWs_cons_notWs (by decide)]
          simp only [List.cons_append, List.append_assoc] at hatom
          rw [hatom]
          dsimp only
          exact parseLoopF_close (k + 1) _ rest qb (by omega) hrest
    refine ⟨?_, hE_abs⟩
    intro n p rest hn hrest
    simp only [needA] at hn
    cases n with
    | zero => omega
    | succ m =>
      obtain ⟨q, hE⟩ := hE_abs m (p + 1) (')' :: rest) (by simp only [needE]; omega)
        (Or.inr ⟨rest, rfl⟩)
      refine ⟨q + 1, ?_⟩
      have hAL : atomL (Expr.abs pr b fs sid) ++ rest =
          '(' :: ((toPlainString (Expr.abs pr b fs sid)).data ++ ')' :: rest) := by
        simp [atomL, Expr.isAbs]
      rw [hAL]
      exact parseAtomF_paren m (toPlainString (Expr.abs pr b fs sid)).data rest p
        (eraseMeta (Expr.abs pr b fs sid)) q hE
  | app f a id fs sid ihf iha =>
    have hwf : wfExpr f = true := by
      simp only [wfExpr, Bool.and_eq_true] at hw
      exact hw.1
    have hwa : wfExpr a = true := by
      simp only [wfExpr, Bool.and_eq_true] at hw
      exact hw.2
    have hAf := (ihf hwf).1
    have hAa := (iha hwa).1
    have hM1 : needA f ≤ max (needA f) (1 + needA a) := le_max_left _ _
    have hM2 : 1 + needA a ≤ max (needA f) (1 + needA a) := le_max_right _ _
    have hpf : 1 ≤ needA f := needA_pos f
    have hpa : 1 ≤ needA a := needA_pos a
    have hA_app : ∀ n p rest, needA (Expr.app f a id fs sid) ≤ n → headNotVarChar rest →
        ∃ q, parseAtomF n ⟨atomL (Expr.app f a id fs sid) ++ rest, p⟩ =
          .ok (eraseMeta (Expr.app f a id fs sid), ⟨rest, q⟩) := by
      intro n p rest hn hrest
      simp only [needA] at hn
      cases n with
      | zero => omega
      | succ m =>
        cases m with
        | zero => omega
        | succ k =>
          cases k with
          | zero => omega
          | succ j =>
            obtain ⟨qf, hF⟩ := hAf (j + 1) (p + 1) (' ' :: (atomL a ++ ')' :: rest))
              (by omega) (by show isVariableCharC ' ' = false; decide)
            obtain ⟨qa, hA2⟩ := hAa j (qf + 1) (')' :: rest) (by omega)
              (by show isVariableCharC ')' = false; decide)
            have hloop := parseLoopF_space_atom j (eraseMeta f) (eraseMeta a)
              (atomL a) rest qf qa (atomL_facts a hwa) hA2 (by omega)
            have hinner : parseExprF (j + 2)
                ⟨atomL f ++ ' ' :: (atomL a ++ ')' :: rest), p + 1⟩ =
                .ok (eraseMeta (Expr.app f a id fs sid), ⟨')' :: rest, qa⟩) := by
              rw [parseExprF]
              obtain ⟨cf, tf, hdf, hwsf, _, _⟩ := atomL_facts f hwf
              rw [hdf]
              simp only [List.cons_append]
              rw [skipWs_cons_notWs hwsf]
              rw [hdf] at hF
              simp only [List.cons_append] at hF
              rw [hF]
              dsimp only
              exact hloop
            refine ⟨qa + 1, ?_⟩
            have hAL : atomL (Expr.app f a id fs sid) ++ rest =
                '(' :: ((atomL f ++ ' ' :: atomL a) ++ ')' :: rest) := by
              simp [atomL, Expr.isAbs, ts_app_data]
            rw [hAL]
            have hinner' : parseExprF (j + 2)
                ⟨(atomL f ++ ' ' :: atomL a) ++ ')' :: rest, p + 1⟩ =
                .ok (eraseMeta (Expr.app f a id fs sid), ⟨')' :: rest, qa⟩) := by
              simp only [List.cons_append, List.append_assoc]
              simp only [List.cons_append, List.append_assoc] at hinner
              exact hinner
            exact parseAtomF_paren (j + 2) (atomL f ++ ' ' :: atomL a) rest p
              (eraseMeta (Expr.app f a id fs sid)) qa hinner'
    refine ⟨hA_app, ?_⟩
    intro n p rest hn hrest
    simp only [needE] at hn
    cases n with
    | zero => omega
    | succ m =>
      obtain ⟨q, hA⟩ := hA_app m p rest (by simp only [needA]; omega)
        (restClose_notVarChar hrest)
      refine ⟨q, ?_⟩
      have hAL : atomL (Expr.app f a id fs sid) =
          (toPlainString (Expr.app f a id fs sid)).data := by
        simp [atomL, Expr.isAbs]
      rw [hAL] at hA
      obtain ⟨ca, ta, hda, hwsa, _, _⟩ := atomL_facts (Expr.app f a id fs sid)
        (by simp only [wfExpr, Bool.and_eq_true]; exact ⟨hwf, hwa⟩)
      rw [hAL] at hda
      exact parseExprF_of_atom m _ rest p q (eraseMeta (Expr.app f a id fs sid))
        ⟨ca, ta, hda, hwsa⟩ hA (by omega) hrest

theorem need_bounds (e : Expr) : needA e + 1 ≤ 4 * e.size ∧ needE e ≤ 4 * e.size := by
  induction e with
  | var nm fs sid =>
    simp only [needA, needE, Expr.size]
    omega
  | abs p b fs sid ih =>
    simp only [needA, needE, Expr.size]
    omega
  | app f a id fs sid ihf iha =>
    simp only [needA, needE, Expr.size]
    have hc1 : needA f ≤ 4 * f.size + 4 * a.size := by omega
    have hc2 : 1 + needA a ≤ 4 * f.size + 4 * a.size := by omega
    have hm := max_le hc1 hc2
    omega

theorem varChar_ne {c x : Char} (h : isVariableCharC c = true)
    (hx : isVariableCharC x = false) : ¬c = x := by
  intro he
  subst he
  rw [h] at hx
  exact absurd hx (by decide)

theorem varChar_not_ws {c : Char} (h : isVariableCharC c = true) : isWsC c = false := by
  simp only [isWsC, Bool.or_eq_false_iff, decide_eq_false_iff_not]
  refine ⟨⟨⟨⟨⟨?_, ?_⟩, ?_⟩, ?_⟩, ?_⟩, ?_⟩ <;> exact varChar_ne h (by decide)

theorem ts_head_facts (e : Expr) (hw : wfExpr e = true) :
    ∃ c t, (toPlainString e).data = c :: t ∧ isWsC c = false := by
  cases e with
  | var nm fs sid =>
    obtain ⟨c, t, hd, hstart, _⟩ := validName_parts nm (by simpa [wfExpr] using hw)
    exact ⟨c, t, by rw [ts_var_data, hd], varStart_not_ws hstart⟩
  | abs p b fs sid => exact ⟨'λ', _, ts_abs_data p b fs sid, by decide⟩
  | app f a id fs sid => exact ⟨'(', _, ts_app_data f a id fs sid, by decide⟩

theorem ts_last_facts (e : Expr) (hw : wfExpr e = true) :
    ∃ l c, (toPlainString e).data = l ++ [c] ∧ isWsC c = false := by
  induction e with
  | var nm fs sid =>
    obtain ⟨c, t, hd, hstart, hall⟩ := validName_parts nm (by simpa [wfExpr] using hw)
    rcases List.eq_nil_or_concat nm.data with hnil | ⟨L, b, hcat⟩
    · rw [hnil] at hd
      cases hd
    · refine ⟨L, b, ?_, varChar_not_ws (hall b ?_)⟩
      · rw [ts_var_data, hcat, List.concat_eq_append]
      · rw [hcat]
        simp
  | abs p b fs sid ih =>
    have hwb : wfExpr b = true := by
      simp only [wfExpr, Bool.and_eq_true] at hw
      exact hw.2
    obtain ⟨l, c, hd, hws⟩ := ih hwb
    refine ⟨'λ' :: (p.data ++ '.' :: l), c, ?_, hws⟩
    rw [ts_abs_data, hd]
    simp
  | app f a id fs sid ihf iha =>
    refine ⟨'(' :: (atomL f ++ ' ' :: atomL a), ')', ?_, by decide⟩
    rw [ts_app_data]
    simp

theorem jsTrim_ts (e : Expr) (hw : wfExpr e = true) :
    jsTrim (toPlainString e).data = (toPlainString e).data := by
  obtain ⟨c, t, hd, hws⟩ := ts_head_facts e hw
  obtain ⟨l, c2, hd2, hws2⟩ := ts_last_facts e hw
  rw [jsTrim, hd]
  rw [List.dropWhile_cons]
  rw [hws]
  simp only [Bool.false_eq_true, if_false]
  rw [← hd, hd2]
  rw [List.reverse_append]
  simp only [List.reverse_cons, List.reverse_nil, List.nil_append, List.singleton_append]
  rw [List.dropWhile_cons, hws2]
  simp only [Bool.false_eq_true, if_false]
  simp

theorem atomL_length (e : Expr) :
    (toPlainString e).data.length ≤ (atomL e).length := by
  rw [atomL]
  split
  · simp
    omega
  · exact Nat.le_refl _

theorem size_le_ts (e : Expr) (hw : wfExpr e = true) :
    e.size ≤ (toPlainString e).data.length := by
  induction e with
  | var nm fs sid =>
    obtain ⟨c, t, hd, _, _⟩ := validName_parts nm (by simpa [wfExpr] using hw)
    rw [ts_var_data, hd]
    simp [Expr.size]
  | abs p b fs sid ih =>
    have hwb : wfExpr b = true := by
      simp only [wfExpr, Bool.and_eq_true] at hw
      exact hw.2
    rw [ts_abs_data]
    simp only [Expr.size, List.length_cons, List.length_append]
    have := ih hwb
    omega
  | app f a id fs sid ihf iha =>
    have hwf : wfExpr f = true := by
      simp only [wfExpr, Bool.and_eq_true] at hw
      exact hw.1
    have hwa : wfExpr a = true := by
      simp only [wfExpr, Bool.and_eq_true] at hw
      exact hw.2
    rw [ts_app_data]
    simp only [Expr.size, List.length_cons, List.length_append]
    have h1 := ihf hwf
    have h2 := iha hwa
    have h3 := atomL_length f
    have h4 := atomL_length a
    omega

/-- Claim C2: round-trip. For every Expression built from the constructors
over valid variable names, parsing its canonical serialization gives back the
same tree up to the provenance fields (`fromSubstitution`, `sourceId`, and the
Application `id`), that is, `parse (toPlainString a) = ok (eraseMeta a)`. -/
theorem c2_parse_toPlainString_roundtrip (a : Expr) (hw : wfExpr a = true) :
    parse (toPlainString a) = .ok (eraseMeta a) := by
  have hE := (parse_ts_main a hw).2
  have hfuel : needE a ≤ parseFuel (toPlainString a).data := by
    have h1 := (need_bounds a).2
    have h2 := size_le_ts a hw
    simp only [parseFuel]
    omega
  obtain ⟨q, hq⟩ := hE (parseFuel (toPlainString a).data) 0 [] hfuel (Or.inl rfl)
  rw [List.append_nil] at hq
  rw [parse, jsTrim_ts a hw, hq]
  dsimp only
  rw [skipWs_nil]
  simp

/-- Witness for C2 at a concrete term carrying nontrivial provenance marks:
`((λx.x) y')` with assorted `fromSubstitution`/`sourceId`/`id` values. -/
theorem c2_roundtrip_witness :
    wfExpr (.app (.abs "x" (.var "x" true (some 5)) false (some 2))
      (.var "y\x27" true none) (some 9) true (some 1)) = true ∧
    parse (toPlainString (.app (.abs "x" (.var "x" true (some 5)) false (some 2))
      (.var "y\x27" true none) (some 9) true (some 1))) =
      .ok (eraseMeta (.app (.abs "x" (.var "x" true (some 5)) false (some 2))
        (.var "y\x27" true none) (some 9) true (some 1))) :=
  ⟨by decide, c2_parse_toPlainString_roundtrip _ (by decide)⟩
